import Mathlib

/-!
Verification of the youtube-sentiment-analyzer core pipeline.

Shallow embedding of the services under `app/services` and `app/tasks`:
the relational tables become lists of row structures, the Postgres
`INSERT ... ON CONFLICT DO UPDATE` becomes an explicit upsert on those
lists, Python floats on the token-bucket / percentage paths become exact
rationals, and the external collaborators (Redis clock, HuggingFace
classifier, nltk tokenizer, uuid4 draws) become explicit function
parameters.
-/

namespace YSA

/-! ## Rate limiter (`app/services/rate_limiter.py`) -/

/-- Bucket state stored per org in Redis: a token count and the time of
the last refill, both modelled as exact rationals. -/
structure Bucket where
  tokens : ℚ
  last_refill : ℚ
  deriving Repr, DecidableEq

/-- `RATE_LIMIT_MAX_TOKENS = 5` (bucket capacity). -/
def RATE_LIMIT_MAX_TOKENS : ℚ := 5

/-- `RATE_LIMIT_REFILL_RATE = 5 / 60` tokens per second. -/
def RATE_LIMIT_REFILL_RATE : ℚ := 5 / 60

/-- `check_rate_limit` from `rate_limiter.py`: reads the bucket
(`none` models an absent/expired Redis key, recreated at full capacity
with `last_refill = now`), refills by elapsed time, admits iff the
refilled count is at least one token, consuming one when admitted.
Returns the admission decision and the persisted bucket. -/
def check_rate_limit (bucket : Option Bucket) (now : ℚ) : Bool × Bucket :=
  let tokens0 := match bucket with
    | some b => b.tokens
    | none => RATE_LIMIT_MAX_TOKENS
  let last_refill := match bucket with
    | some b => b.last_refill
    | none => now
  let elapsed := now - last_refill
  let tokens := min RATE_LIMIT_MAX_TOKENS (tokens0 + elapsed * RATE_LIMIT_REFILL_RATE)
  if tokens ≥ 1 then
    (true, ⟨tokens - 1, now⟩)
  else
    (false, ⟨tokens, now⟩)

/-- Run `n` consecutive admission checks at the same instant, returning
the list of decisions and the final bucket. -/
def runChecks : ℕ → Bucket → ℚ → List Bool × Bucket
  | 0, b, _ => ([], b)
  | n + 1, b, now =>
      let r := check_rate_limit (some b) now
      let rest := runChecks n r.2 now
      (r.1 :: rest.1, rest.2)

/-! ## Generic `INSERT ... ON CONFLICT DO UPDATE`

All three persistence sites (`dedupe.py`, `aggregates.py`, `keywords.py`)
use the Postgres upsert with a conflict key and a column-overwrite rule.
We model a table as a list of rows, a key function `k`, and a merge
function `m old new` giving the row stored when `new` hits an existing
row `old` with the same key. -/

/-- The rows of table `t` whose key is `key`. -/
def rowsWith {ρ κ : Type} [DecidableEq κ] (k : ρ → κ) (t : List ρ) (key : κ) : List ρ :=
  t.filter (fun x => decide (k x = key))

/-- One `INSERT ... ON CONFLICT DO UPDATE` row: if some stored row shares
`r`'s key it is overwritten by `m old r`, otherwise `r` is appended. -/
def upsertRow {ρ κ : Type} [DecidableEq κ] (k : ρ → κ) (m : ρ → ρ → ρ)
    (t : List ρ) (r : ρ) : List ρ :=
  if t.any (fun x => decide (k x = k r)) then
    t.map (fun x => if k x = k r then m x r else x)
  else t ++ [r]

/-- A batch of upserts applied in order. -/
def upsertAll {ρ κ : Type} [DecidableEq κ] (k : ρ → κ) (m : ρ → ρ → ρ)
    (t : List ρ) (rs : List ρ) : List ρ :=
  rs.foldl (upsertRow k m) t

/-! ## Comment upsert (`app/services/dedupe.py`, `app/models/comment.py`) -/

/-- One raw comment dict passed to `upsert_comments`. Fields read by
`c.get(...)` with no default are modelled at the type the `comments`
table stores (`text`/`published_at` are NOT NULL); `author`/`parent_id`
are nullable and `like_count` is read with default `0`. The `id` field
models the uuid4 primary-key default drawn for this record's insert. -/
structure CommentRecord where
  id : String
  yt_comment_id : String
  author : Option String
  text : String
  published_at : Int
  like_count : Option Int
  parent_id : Option String
  deriving Repr, DecidableEq

/-- A stored row of the `comments` table (`app/models/comment.py`),
unique on `(org_id, yt_comment_id)`. -/
structure CommentRow where
  id : String
  org_id : String
  video_id : String
  yt_comment_id : String
  author : Option String
  text : String
  published_at : Int
  like_count : Int
  parent_id : Option String
  deriving Repr, DecidableEq

/-- The payload normalization loop of `upsert_comments`: org_id and
video_id always come from the arguments, `like_count` defaults to 0. -/
def commentValues (org_id video_id : String) (c : CommentRecord) : CommentRow :=
  { id := c.id
    org_id := org_id
    video_id := video_id
    yt_comment_id := c.yt_comment_id
    author := c.author
    text := c.text
    published_at := c.published_at
    like_count := c.like_count.getD 0
    parent_id := c.parent_id }

/-- The conflict target of `uq_org_comment`. -/
def commentKey (r : CommentRow) : String × String := (r.org_id, r.yt_comment_id)

/-- The `ON CONFLICT DO UPDATE SET` clause of `upsert_comments`:
overwrite author, text, published_at, like_count, parent_id; all other
columns (id, org_id, video_id) keep their stored values. -/
def mergeComment (old new : CommentRow) : CommentRow :=
  { old with
    author := new.author
    text := new.text
    published_at := new.published_at
    like_count := new.like_count
    parent_id := new.parent_id }

/-- `upsert_comments(db, org_id, video_id, comments)`: batch upsert into
the `comments` table by `(org_id, yt_comment_id)`. -/
def upsert_comments (table : List CommentRow) (org_id video_id : String)
    (comments : List CommentRecord) : List CommentRow :=
  upsertAll commentKey mergeComment table (comments.map (commentValues org_id video_id))

/-! ## Videos and analytics resolution (`app/api/routes/analytics.py`) -/

/-- A stored row of the `videos` table, unique on
`(org_id, yt_video_id)`. Metadata columns (title, channel_id,
timestamps) are never read on the analytics paths and are elided. -/
structure VideoRow where
  id : String
  org_id : String
  yt_video_id : String
  deriving Repr, DecidableEq

/-- `_resolve_video_uuid(db, org_id, yt_video_id)`: look up the internal
UUID of the video with the given external id inside the caller's org;
`none` models the raised 404. `find?` is adequate because
`uq_video_per_org` allows at most one matching row
(`scalar_one_or_none`). -/
def resolve_video_uuid (videos : List VideoRow) (org_id yt_video_id : String) :
    Option String :=
  (videos.find? (fun v =>
    decide (v.org_id = org_id) && decide (v.yt_video_id = yt_video_id))).map
    (fun v => v.id)

/-! ## Sentiment rows and inference (`app/models/comment_sentiment.py`,
`app/services/nlp_sentiment.py`) -/

/-- A naive datetime, as stored in the DateTime columns: a calendar-date
index plus time of day. (Microseconds play no role in the claims and are
elided.) -/
structure Timestamp where
  date : ℤ
  hour : ℕ
  minute : ℕ
  second : ℕ
  deriving Repr, DecidableEq

/-- A stored row of the `comment_sentiment` table, unique on
`(org_id, comment_id)`. -/
structure SentRow where
  id : String
  org_id : String
  comment_id : String
  label : String
  score : ℚ
  model_name : String
  analyzed_at : Timestamp
  deriving Repr, DecidableEq

/-- The conflict target of `uq_org_comment_sentiment`. -/
def sentKey (s : SentRow) : String × String := (s.org_id, s.comment_id)

/-- One normalized result dict returned by `analyze_batch`. -/
structure SentOut where
  label : String
  score : ℚ
  model_name : String
  deriving Repr, DecidableEq

/-- Python `str.lower()` over the character sequence (classifier labels
are ASCII, where `Char.toLower` and Python agree). -/
def toLowerStr (s : String) : String := ⟨s.data.map Char.toLower⟩

/-- Python `str.startswith(p)` over the character sequence. -/
def startsWithStr (s p : String) : Bool := p.data.isPrefixOf s.data

/-- The label-normalization loop body of `analyze_batch`
(`nlp_sentiment.py`): lowercase, then prefix-match `pos`/`neg`,
defaulting to `neu`. -/
def normalize_label (raw : String) : String :=
  let label := toLowerStr raw
  if startsWithStr label "pos" then "pos"
  else if startsWithStr label "neg" then "neg"
  else "neu"

/-- `analyze_batch(texts)`: run the classifier over the batch (the
HuggingFace pipeline, modelled as `classifier : text → (raw label,
score)`), normalize each raw label, and attach the active model
identifier (`settings.HF_MODEL_NAME`) to every result. -/
def analyze_batch (model_name : String) (classifier : String → String × ℚ)
    (texts : List String) : List SentOut :=
  (texts.map classifier).map (fun r =>
    { label := normalize_label r.1, score := r.2, model_name := model_name })

/-! ## Sentiment analysis task (`app/tasks/analyze.py`) -/

/-- The anti-join select of `_analyze_comments`: comments of this org
whose video has the requested external YouTube id and which have no
`comment_sentiment` row for this org. (The join through `videos` is a
filter because `videos.id` is a primary key.) -/
def selectUnanalyzed (videos : List VideoRow) (comments : List CommentRow)
    (sents : List SentRow) (org_id yt_video_id : String) : List CommentRow :=
  comments.filter (fun c =>
    decide (c.org_id = org_id) &&
    videos.any (fun v => decide (c.video_id = v.id) && decide (v.yt_video_id = yt_video_id)) &&
    !(sents.any (fun s => decide (s.comment_id = c.id) && decide (s.org_id = org_id))))

/-- One `CommentSentiment(...)` constructor call in the insert loop of
`_analyze_comments`; `genId` models the uuid4 primary-key default. -/
def mkSentimentRow (genId : String → String) (org_id : String) (c : CommentRow)
    (r : SentOut) (now : Timestamp) : SentRow :=
  { id := genId c.id
    org_id := org_id
    comment_id := c.id
    label := r.label
    score := r.score
    model_name := r.model_name
    analyzed_at := now }

/-- `_analyze_comments(video_id, org_id)`.

`sents` is the `comment_sentiment` table at select time; `concurrent`
models rows committed by a concurrent duplicate run between the select
and this task's commit (empty when no race occurs).

All `CommentSentiment` objects are staged with `session.add` — which
only registers them in the session and cannot raise — and the single
`session.commit()` at the end flushes every staged INSERT in one
transaction. A uniqueness violation of `uq_org_comment_sentiment` during
that flush raises `IntegrityError` out of `commit()`; since the
`try/except IntegrityError` in the source wraps only `session.add`, the
exception propagates and the whole transaction is rolled back, which the
`.error` branch models. On success the task reports the number of staged
rows. -/
def analyze_comments (videos : List VideoRow) (comments : List CommentRow)
    (sents concurrent : List SentRow) (model_name : String)
    (classifier : String → String × ℚ) (genId : String → String) (now : Timestamp)
    (yt_video_id org_id : String) : Except Unit (List SentRow × ℕ) :=
  let selected := selectUnanalyzed videos comments sents org_id yt_video_id
  if selected = [] then
    .ok (sents ++ concurrent, 0)
  else
    let results := analyze_batch model_name classifier (selected.map (fun c => c.text))
    let staged := (selected.zip results).map (fun p => mkSentimentRow genId org_id p.1 p.2 now)
    let committed := sents ++ concurrent
    if (staged.map sentKey).Nodup ∧ ∀ s ∈ staged, sentKey s ∉ committed.map sentKey then
      .ok (committed ++ staged, staged.length)
    else
      .error ()

/-- The one `CommentSentiment` row the task stages for comment `c`. -/
def stagedRow (mn : String) (cl : String → String × ℚ) (genId : String → String)
    (now : Timestamp) (org_id : String) (c : CommentRow) : SentRow :=
  mkSentimentRow genId org_id c
    ⟨normalize_label (cl c.text).1, (cl c.text).2, mn⟩ now

/-! ## Aggregates (`app/services/aggregates.py`) -/

/-- Distinct elements of a list in first-occurrence order, with an
accumulator of already-seen elements. -/
def firstOccAux {α : Type} [DecidableEq α] : List α → List α → List α
  | [], _ => []
  | a :: as, seen =>
      if a ∈ seen then firstOccAux as seen
      else a :: firstOccAux as (a :: seen)

/-- Distinct elements of `l`, first occurrence first: the group keys of
a SQL `GROUP BY` (one per distinct value) and the key order of a Python
`Counter`, whose dict preserves insertion order. -/
def firstOccurrences {α : Type} [DecidableEq α] (l : List α) : List α :=
  firstOccAux l []

/-- The join-and-filter shared by `compute_and_store_trend` and
`compute_distribution`: sentiment rows of the org whose comment belongs
to the target video (join on `comments.id`, a primary key). -/
def distRows (comments : List CommentRow) (sents : List SentRow)
    (video_id org_id : String) : List SentRow :=
  sents.filter (fun s =>
    decide (s.org_id = org_id) &&
    comments.any (fun c => decide (c.id = s.comment_id) && decide (c.video_id = video_id)))

/-- The dict returned by `compute_distribution`. -/
structure Distribution where
  pos_pct : ℚ
  neg_pct : ℚ
  neu_pct : ℚ
  count : ℕ
  deriving Repr, DecidableEq

/-- `compute_distribution(session, video_id, org_id)`: a pure read. The
SQL groups the joined rows by label and counts each group; `total` is
the sum of the group counts — i.e. the number of joined rows — coerced
to 1 by `or 1` when zero; each percentage is that label's group count
over `total`, with absent groups contributing `0.0` via the `next(...,
0.0)` default. -/
def compute_distribution (comments : List CommentRow) (sents : List SentRow)
    (video_id org_id : String) : Distribution :=
  let rows := distRows comments sents video_id org_id
  let labelCount := fun l => (rows.filter (fun s => decide (s.label = l))).length
  let total := if rows.length = 0 then 1 else rows.length
  { pos_pct := (labelCount "pos" : ℚ) / (total : ℚ)
    neg_pct := (labelCount "neg" : ℚ) / (total : ℚ)
    neu_pct := (labelCount "neu" : ℚ) / (total : ℚ)
    count := total }

/-- A stored row of the `sentiment_aggregates` table, unique on
`(org_id, video_id, window_start, window_end)`. The uuid primary key and
`created_at` are not part of the upsert's `values` and are elided. -/
structure AggRow where
  org_id : String
  video_id : String
  window_start : Timestamp
  window_end : Timestamp
  pos_pct : ℚ
  neg_pct : ℚ
  neu_pct : ℚ
  count : ℕ
  deriving Repr, DecidableEq

/-- The conflict target of `uq_org_video_window`. -/
def aggKey (a : AggRow) : String × String × Timestamp × Timestamp :=
  (a.org_id, a.video_id, a.window_start, a.window_end)

/-- The trend upsert's `set_=values` overwrites every modelled column. -/
def mergeAggregate (_old new : AggRow) : AggRow := new

/-- `window_start.replace(hour=23, minute=59, second=59)`. -/
def day_end (t : Timestamp) : Timestamp :=
  { t with hour := 23, minute := 59, second := 59 }

/-- The `GROUP BY bucket` keys: distinct truncated timestamps in
first-occurrence order. (`ORDER BY bucket` only permutes the returned
list and is dropped; every claim is per-row.) -/
def trendBuckets (trunc : Timestamp → Timestamp) (rows : List SentRow) : List Timestamp :=
  firstOccurrences (rows.map (fun s => trunc s.analyzed_at))

/-- One aggregate row of `compute_and_store_trend` for bucket `b`:
`count` is the bucket size, each percentage is the SQL
`avg(case(label == l, 1, else 0))` — the sum of 0/1 indicators over the
bucket count — and `window_end` is 23:59:59 on `window_start`'s date. -/
def bucketAggregate (trunc : Timestamp → Timestamp) (rows : List SentRow)
    (video_id org_id : String) (b : Timestamp) : AggRow :=
  let bucketRows := rows.filter (fun s => decide (trunc s.analyzed_at = b))
  { org_id := org_id
    video_id := video_id
    window_start := b
    window_end := day_end b
    pos_pct := ((bucketRows.map (fun s => if s.label = "pos" then (1 : ℚ) else 0)).sum) /
      (bucketRows.length : ℚ)
    neg_pct := ((bucketRows.map (fun s => if s.label = "neg" then (1 : ℚ) else 0)).sum) /
      (bucketRows.length : ℚ)
    neu_pct := ((bucketRows.map (fun s => if s.label = "neu" then (1 : ℚ) else 0)).sum) /
      (bucketRows.length : ℚ)
    count := bucketRows.length }

/-- `compute_and_store_trend(session, video_id, org_id, window)`:
`trunc` embeds `func.date_trunc(window, analyzed_at)` for the requested
granularity. Returns the computed aggregates and the upserted
`sentiment_aggregates` table. -/
def compute_and_store_trend (trunc : Timestamp → Timestamp)
    (comments : List CommentRow) (sents : List SentRow) (aggTable : List AggRow)
    (video_id org_id : String) : List AggRow × List AggRow :=
  let rows := distRows comments sents video_id org_id
  let aggregates := (trendBuckets trunc rows).map (bucketAggregate trunc rows video_id org_id)
  (aggregates, upsertAll aggKey mergeAggregate aggTable aggregates)

/-! ## Keywords (`app/services/keywords.py`, `app/models/keyword.py`) -/

/-- `Counter(tokens)` as an association list in insertion order. -/
def termCounts (tokens : List String) : List (String × ℕ) :=
  (firstOccurrences tokens).map (fun t => (t, tokens.count t))

/-- Stable descending insertion by count: `x` passes rows with strictly
larger counts and lands before the first row whose count is ≤ its own,
so earlier-inserted rows win ties. -/
def insertDesc (x : String × ℕ) : List (String × ℕ) → List (String × ℕ)
  | [] => [x]
  | y :: ys => if x.2 < y.2 then y :: insertDesc x ys else x :: y :: ys

/-- Stable sort by descending count (the order `Counter.most_common`
produces: descending count, ties by first encounter). -/
def sortDesc : List (String × ℕ) → List (String × ℕ)
  | [] => []
  | x :: xs => insertDesc x (sortDesc xs)

/-- `Counter(tokens).most_common(k)`. -/
def most_common (tokens : List String) (k : ℕ) : List (String × ℕ) :=
  (sortDesc (termCounts tokens)).take k

/-- A stored row of the `keywords` table, unique on
`(org_id, video_id, term)`. -/
structure KeywordRow where
  id : String
  org_id : String
  video_id : String
  term : String
  count : ℕ
  last_updated_at : Timestamp
  deriving Repr, DecidableEq

/-- The conflict target of `uq_org_video_term`. -/
def kwKey (r : KeywordRow) : String × String × String :=
  (r.org_id, r.video_id, r.term)

/-- The keyword upsert's `set_` overwrites `count` and
`last_updated_at` only — a snapshot replace, not an increment. -/
def mergeKeyword (old new : KeywordRow) : KeywordRow :=
  { old with count := new.count, last_updated_at := new.last_updated_at }

/-- The token stream of `compute_and_store_keywords`: all comment text
for the org+video, tokenized (`tokenize` embeds `nltk.word_tokenize`)
and lowercased token by token. -/
def keywordTokens (tokenize : String → List String) (comments : List CommentRow)
    (video_id org_id : String) : List String :=
  let texts := (comments.filter (fun c =>
    decide (c.org_id = org_id) && decide (c.video_id = video_id))).map (fun c => c.text)
  ((texts.map tokenize).flatten).map toLowerStr

/-- One `values` dict of the keyword upsert loop: a fresh uuid4 primary
key (`genId`), the scoping ids, the term, its fresh count and the
`datetime.utcnow()` stamp. -/
def keywordRowOf (genId : String → String) (org_id video_id : String)
    (now : Timestamp) (tc : String × ℕ) : KeywordRow :=
  { id := genId tc.1
    org_id := org_id
    video_id := video_id
    term := tc.1
    count := tc.2
    last_updated_at := now }

/-- `compute_and_store_keywords(session, video_id, org_id, top_k)`:
returns the `[{term, count}]` list and the upserted `keywords` table;
empty token stream short-circuits to no work. `genId` models the uuid4
primary-key default and `now` the `datetime.utcnow()` stamps. -/
def compute_and_store_keywords (tokenize : String → List String)
    (comments : List CommentRow) (kwTable : List KeywordRow)
    (video_id org_id : String) (top_k : ℕ) (genId : String → String)
    (now : Timestamp) : List (String × ℕ) × List KeywordRow :=
  let tokens := keywordTokens tokenize comments video_id org_id
  if tokens.isEmpty then ([], kwTable)
  else
    let freq := most_common tokens top_k
    let rows := freq.map (keywordRowOf genId org_id video_id now)
    (freq, upsertAll kwKey mergeKeyword kwTable rows)

/-- Split a character sequence at spaces. -/
def splitOnSpaceAux : List Char → List Char → List (List Char)
  | [], acc => [acc.reverse]
  | c :: cs, acc =>
      if c = ' ' then acc.reverse :: splitOnSpaceAux cs []
      else splitOnSpaceAux cs (c :: acc)

/-- Whitespace tokenization: what `nltk.word_tokenize` does on the
plain space-separated scenario sentences. -/
def tokenizeWS (s : String) : List String :=
  (splitOnSpaceAux s.data []).map (fun l => ⟨l⟩)

/-! ## Concrete inputs for witnesses and counterexamples -/

/-- Concrete batch for the C1 witness. -/
def c1Batch : List CommentRecord :=
  [{ id := "u1", yt_comment_id := "y1", author := some "alice", text := "hello",
     published_at := 5, like_count := some 3, parent_id := none },
   { id := "u2", yt_comment_id := "y2", author := none, text := "bye",
     published_at := 6, like_count := none, parent_id := some "y1" }]

/-- Time origin used by concrete scenarios. -/
def t0 : Timestamp := ⟨0, 0, 0, 0⟩

/-- C3 scenario: the tenant's video. -/
def c3Videos : List VideoRow := [{ id := "vid-uuid", org_id := "T", yt_video_id := "yt1" }]

/-- C3 scenario: two unanalyzed comments on that video. -/
def c3Comments : List CommentRow :=
  [{ id := "c1", org_id := "T", video_id := "vid-uuid", yt_comment_id := "y1",
     author := some "a", text := "I love this", published_at := 1, like_count := 0,
     parent_id := none },
   { id := "c2", org_id := "T", video_id := "vid-uuid", yt_comment_id := "y2",
     author := some "b", text := "This is terrible", published_at := 2, like_count := 0,
     parent_id := none }]

/-- C3 scenario: a row for comment `c1` committed by a concurrent
duplicate run between this task's select and its commit. -/
def c3Concurrent : List SentRow :=
  [{ id := "s-c1", org_id := "T", comment_id := "c1", label := "pos", score := 1,
     model_name := "m", analyzed_at := t0 }]

/-- Concrete rows for the C5 witness: one positive and one negative
sentiment row on a two-comment video. -/
def c5Sents : List SentRow :=
  [{ id := "s1", org_id := "T", comment_id := "c1", label := "pos", score := 1,
     model_name := "m", analyzed_at := t0 },
   { id := "s2", org_id := "T", comment_id := "c2", label := "neg", score := 1,
     model_name := "m", analyzed_at := t0 }]

/-- Day truncation used in the C9 witness: drop the time of day. -/
def truncDay (t : Timestamp) : Timestamp := ⟨t.date, 0, 0, 0⟩

/-- C10 scenario: the two keyword-extraction comments. -/
def c10Comments : List CommentRow :=
  [{ id := "k1", org_id := "T", video_id := "V", yt_comment_id := "y1",
     author := none, text := "the cat sat", published_at := 1, like_count := 0,
     parent_id := none },
   { id := "k2", org_id := "T", video_id := "V", yt_comment_id := "y2",
     author := none, text := "the cat ran", published_at := 2, like_count := 0,
     parent_id := none }]

/-- The single aggregate row of the C9 witness scenario: the day bucket
of the two concrete sentiment rows. -/
def c9Row : AggRow :=
  bucketAggregate truncDay (distRows c3Comments c5Sents "vid-uuid" "T")
    "vid-uuid" "T" t0

/-! ## Upsert lemmas -/

section UpsertLemmas

variable {ρ κ : Type} [DecidableEq κ] {k : ρ → κ} {m : ρ → ρ → ρ}

lemma rowsWith_append (k : ρ → κ) (t₁ t₂ : List ρ) (key : κ) :
    rowsWith k (t₁ ++ t₂) key = rowsWith k t₁ key ++ rowsWith k t₂ key := by
  simp [rowsWith]

lemma filter_map_comm (f : ρ → ρ) (p : ρ → Bool) (t : List ρ) :
    (t.map f).filter p = (t.filter (fun x => p (f x))).map f := by
  induction t with
  | nil => rfl
  | cons x xs ih =>
    by_cases h : p (f x) <;> simp [List.map_cons, List.filter_cons, h, ih]

lemma rowsWith_eq_nil_of_not_mem {t : List ρ} {key : κ} (h : key ∉ t.map k) :
    rowsWith k t key = [] := by
  rw [rowsWith, List.filter_eq_nil_iff]
  intro x hx
  simp only [decide_eq_true_iff]
  intro hk
  exact h (hk ▸ List.mem_map_of_mem k hx)

lemma length_rowsWith_le_one {t : List ρ} (hnd : (t.map k).Nodup) (key : κ) :
    (rowsWith k t key).length ≤ 1 := by
  induction t with
  | nil => simp [rowsWith]
  | cons x xs ih =>
    rw [List.map_cons, List.nodup_cons] at hnd
    obtain ⟨hx, hxs⟩ := hnd
    by_cases h : k x = key
    · rw [rowsWith, List.filter_cons]
      have hnil : rowsWith k xs key = [] := rowsWith_eq_nil_of_not_mem (h ▸ hx)
      rw [rowsWith] at hnil
      simp [h, hnil]
    · rw [rowsWith, List.filter_cons]
      simp only [h, decide_eq_true_eq]
      simp only [if_false, decide_eq_true_eq]
      exact ih hxs

lemma key_upsert_map (hm : ∀ o n, k o = k n → k (m o n) = k n) (r x : ρ) :
    k (if k x = k r then m x r else x) = k x := by
  by_cases h : k x = k r
  · rw [if_pos h, hm x r h, h]
  · rw [if_neg h]

lemma nodup_map_key_upsertRow (hm : ∀ o n, k o = k n → k (m o n) = k n)
    {t : List ρ} (hnd : (t.map k).Nodup) (r : ρ) :
    ((upsertRow k m t r).map k).Nodup := by
  rw [upsertRow]
  split
  · rw [List.map_map]
    have : (t.map (k ∘ fun x => if k x = k r then m x r else x)) = t.map k :=
      List.map_congr_left fun x _ => key_upsert_map hm r x
    rw [this]
    exact hnd
  · rename_i h
    rw [List.map_append, List.map_singleton]
    have hk : k r ∉ t.map k := by
      intro hmem
      obtain ⟨x, hx, hkx⟩ := List.mem_map.mp hmem
      exact h (List.any_eq_true.mpr ⟨x, hx, by simp [hkx]⟩)
    simp [List.nodup_append, hnd, hk]

lemma rowsWith_upsertRow_self (hm : ∀ o n, k o = k n → k (m o n) = k n)
    {t : List ρ} (hnd : (t.map k).Nodup) (r : ρ) :
    (rowsWith k (upsertRow k m t r) (k r)).length = 1 ∧
    ∀ x ∈ rowsWith k (upsertRow k m t r) (k r),
      (∃ o, k o = k r ∧ x = m o r) ∨ x = r := by
  rw [upsertRow]
  split
  · rename_i h
    obtain ⟨x₀, hx₀, hk₀⟩ := List.any_eq_true.mp h
    rw [decide_eq_true_iff] at hk₀
    rw [rowsWith, filter_map_comm]
    have hcong : ∀ x ∈ t,
        (decide (k (if k x = k r then m x r else x) = k r)) = decide (k x = k r) := by
      intro x _
      rw [key_upsert_map hm r x]
    rw [List.filter_congr hcong]
    constructor
    · rw [List.length_map]
      have h1 : (rowsWith k t (k r)).length ≤ 1 := length_rowsWith_le_one hnd (k r)
      have h2 : x₀ ∈ t.filter (fun x => decide (k x = k r)) :=
        List.mem_filter.mpr ⟨hx₀, by simp [hk₀]⟩
      rw [rowsWith] at h1
      have h3 : 0 < (t.filter (fun x => decide (k x = k r))).length :=
        List.length_pos_of_mem h2
      omega
    · intro x hx
      obtain ⟨x', hx', hfx⟩ := List.mem_map.mp hx
      have hk' : k x' = k r := by
        have := (List.mem_filter.mp hx').2
        rwa [decide_eq_true_iff] at this
      left
      exact ⟨x', hk', by rw [← hfx, if_pos hk']⟩
  · rename_i h
    have hempty : rowsWith k t (k r) = [] := by
      rw [rowsWith, List.filter_eq_nil_iff]
      intro x hx
      simp only [decide_eq_true_iff]
      intro hk
      exact h (List.any_eq_true.mpr ⟨x, hx, by simp [hk]⟩)
    rw [rowsWith_append, hempty]
    constructor
    · simp [rowsWith]
    · intro x hx
      simp only [rowsWith, List.nil_append] at hx
      right
      have := List.mem_filter.mp hx
      simpa using this.1

lemma rowsWith_upsertRow_other (hm : ∀ o n, k o = k n → k (m o n) = k n)
    {t : List ρ} {key : κ} (r : ρ) (hkey : key ≠ k r) :
    rowsWith k (upsertRow k m t r) key = rowsWith k t key := by
  rw [upsertRow]
  split
  · rw [rowsWith, filter_map_comm]
    have hcong : ∀ x ∈ t,
        (decide (k (if k x = k r then m x r else x) = key)) = decide (k x = key) := by
      intro x _
      rw [key_upsert_map hm r x]
    rw [List.filter_congr hcong]
    rw [rowsWith]
    have : ∀ x ∈ t.filter (fun x => decide (k x = key)),
        (if k x = k r then m x r else x) = x := by
      intro x hx
      have hk : k x = key := by
        have := (List.mem_filter.mp hx).2
        rwa [decide_eq_true_iff] at this
      exact if_neg fun hh => hkey (hk.symm.trans hh)
    rw [List.map_congr_left this, List.map_id']
  · rw [rowsWith_append]
    have hone : rowsWith k [r] key = [] := by
      rw [rowsWith, List.filter_eq_nil_iff]
      intro x hx
      rw [List.mem_singleton] at hx
      subst hx
      simp only [decide_eq_true_iff]
      exact fun hh => hkey hh.symm
    rw [hone, List.append_nil]

lemma rowsWith_upsertAll_of_not_mem (hm : ∀ o n, k o = k n → k (m o n) = k n)
    {t : List ρ} {key : κ} {rs : List ρ} (h : ∀ r ∈ rs, key ≠ k r) :
    rowsWith k (upsertAll k m t rs) key = rowsWith k t key := by
  induction rs generalizing t with
  | nil => rfl
  | cons r rest ih =>
    rw [upsertAll, List.foldl_cons, ← upsertAll]
    rw [ih fun s hs => h s (List.mem_cons_of_mem r hs),
      rowsWith_upsertRow_other hm r (h r (List.mem_cons_self r rest))]

lemma nodup_map_key_upsertAll (hm : ∀ o n, k o = k n → k (m o n) = k n)
    {t : List ρ} {rs : List ρ} (hnd : (t.map k).Nodup) :
    ((upsertAll k m t rs).map k).Nodup := by
  induction rs generalizing t with
  | nil => exact hnd
  | cons r rest ih =>
    rw [upsertAll, List.foldl_cons, ← upsertAll]
    exact ih (nodup_map_key_upsertRow hm hnd r)

/-- Main upsert-batch lemma: after upserting a batch `rs` with pairwise
distinct keys into a key-unique table, each batch row `r` is stored in
exactly one table row, which is either `m old r` or `r` itself. -/
lemma rowsWith_upsertAll_mem (hm : ∀ o n, k o = k n → k (m o n) = k n)
    {t : List ρ} {rs : List ρ} {r : ρ} (hnd : (t.map k).Nodup)
    (hrs : (rs.map k).Nodup) (hr : r ∈ rs) :
    (rowsWith k (upsertAll k m t rs) (k r)).length = 1 ∧
    ∀ x ∈ rowsWith k (upsertAll k m t rs) (k r),
      (∃ o, k o = k r ∧ x = m o r) ∨ x = r := by
  induction rs generalizing t with
  | nil => cases hr
  | cons r' rest ih =>
    rw [upsertAll, List.foldl_cons, ← upsertAll]
    rw [List.map_cons, List.nodup_cons] at hrs
    rcases List.mem_cons.mp hr with rfl | hmem
    · have hnotin : ∀ s ∈ rest, k r ≠ k s := by
        intro s hs hks
        exact hrs.1 (hks ▸ List.mem_map_of_mem k hs)
      rw [rowsWith_upsertAll_of_not_mem hm hnotin]
      exact rowsWith_upsertRow_self hm hnd r
    · exact ih (nodup_map_key_upsertRow hm hnd r') hrs.2 hmem

end UpsertLemmas

/-! ## C1 — idempotent comment upsert -/

lemma mergeComment_key (o n : CommentRow) (h : commentKey o = commentKey n) :
    commentKey (mergeComment o n) = commentKey n := by
  simpa [commentKey, mergeComment] using h

lemma upsert_comments_batch_keys (org_id video_id : String) (batch : List CommentRecord)
    (hkeys : (batch.map (fun c => c.yt_comment_id)).Nodup) :
    ((batch.map (commentValues org_id video_id)).map commentKey).Nodup := by
  rw [List.map_map]
  have heq : (commentKey ∘ commentValues org_id video_id) =
      (fun y => (org_id, y)) ∘ (fun c : CommentRecord => c.yt_comment_id) := by
    funext c
    rfl
  rw [heq, ← List.map_map]
  exact hkeys.map fun a b h => (Prod.mk.injEq _ _ _ _ ▸ h : _ ∧ _).2

/-- C1: applying `upsert_comments` twice with the same tenant id, video
id and batch (with pairwise-distinct natural keys, as the unique
constraint demands of a single multi-row statement) leaves exactly one
`comments` row per `(org_id, yt_comment_id)` pair of the batch, carrying
the author/text/published_at/like_count/parent_id supplied by the second
application. -/
theorem upsert_comments_idempotent
    (table : List CommentRow) (org_id video_id : String) (batch : List CommentRecord)
    (hnd : (table.map commentKey).Nodup)
    (hkeys : (batch.map (fun c => c.yt_comment_id)).Nodup) :
    ∀ c ∈ batch,
      (rowsWith commentKey
          (upsert_comments (upsert_comments table org_id video_id batch) org_id video_id batch)
          (org_id, c.yt_comment_id)).length = 1 ∧
      ∀ x ∈ rowsWith commentKey
          (upsert_comments (upsert_comments table org_id video_id batch) org_id video_id batch)
          (org_id, c.yt_comment_id),
        x.author = c.author ∧ x.text = c.text ∧ x.published_at = c.published_at ∧
          x.like_count = c.like_count.getD 0 ∧ x.parent_id = c.parent_id := by
  intro c hc
  have hrs := upsert_comments_batch_keys org_id video_id batch hkeys
  have hnd1 : ((upsert_comments table org_id video_id batch).map commentKey).Nodup :=
    nodup_map_key_upsertAll mergeComment_key hnd
  have hmem : commentValues org_id video_id c ∈ batch.map (commentValues org_id video_id) :=
    List.mem_map_of_mem _ hc
  have hkey : commentKey (commentValues org_id video_id c) = (org_id, c.yt_comment_id) := rfl
  have main := rowsWith_upsertAll_mem mergeComment_key hnd1 hrs hmem
  rw [hkey] at main
  refine ⟨main.1, fun x hx => ?_⟩
  rcases main.2 x hx with ⟨o, _, rfl⟩ | rfl
  · exact ⟨rfl, rfl, rfl, rfl, rfl⟩
  · exact ⟨rfl, rfl, rfl, rfl, rfl⟩

/-- C1 witness: the idempotent-upsert theorem applied to a concrete
two-comment batch on an empty table. -/
theorem upsert_comments_idempotent_witness :
    (([] : List CommentRow).map commentKey).Nodup ∧
    (c1Batch.map (fun c => c.yt_comment_id)).Nodup ∧
    ∀ c ∈ c1Batch,
      (rowsWith commentKey
          (upsert_comments (upsert_comments [] "T1" "V1" c1Batch) "T1" "V1" c1Batch)
          ("T1", c.yt_comment_id)).length = 1 ∧
      ∀ x ∈ rowsWith commentKey
          (upsert_comments (upsert_comments [] "T1" "V1" c1Batch) "T1" "V1" c1Batch)
          ("T1", c.yt_comment_id),
        x.author = c.author ∧ x.text = c.text ∧ x.published_at = c.published_at ∧
          x.like_count = c.like_count.getD 0 ∧ x.parent_id = c.parent_id :=
  ⟨by decide, by decide,
    upsert_comments_idempotent [] "T1" "V1" c1Batch (by decide) (by decide)⟩

/-! ## C2 — token bucket admission -/

/-- C2: on every call with stored state `(t, l)` at time `n`,
`check_rate_limit` refills to `t' = min 5 (t + (n - l) * (5/60))`,
admits iff `t' ≥ 1`, consumes exactly one token when admitting and
persists `(t', n)` unchanged otherwise; and concretely, from a fresh
bucket with zero elapsed time exactly 5 consecutive checks succeed and
the 6th fails, and after waiting `1 / refill_rate = 12` seconds exactly
one further check succeeds. -/
theorem check_rate_limit_token_bucket :
    (∀ t l n : ℚ,
      ((check_rate_limit (some ⟨t, l⟩) n).1 = true ↔
        1 ≤ min 5 (t + (n - l) * (5 / 60))) ∧
      (check_rate_limit (some ⟨t, l⟩) n).2 =
        (if 1 ≤ min 5 (t + (n - l) * (5 / 60))
          then ⟨min 5 (t + (n - l) * (5 / 60)) - 1, n⟩
          else ⟨min 5 (t + (n - l) * (5 / 60)), n⟩ : Bucket)) ∧
    check_rate_limit none 0 = (true, ⟨4, 0⟩) ∧
    runChecks 5 ⟨4, 0⟩ 0 = ([true, true, true, true, false], ⟨0, 0⟩) ∧
    check_rate_limit (some ⟨0, 0⟩) 12 = (true, ⟨0, 12⟩) ∧
    check_rate_limit (some ⟨0, 12⟩) 12 = (false, ⟨0, 12⟩) := by
  refine ⟨fun t l n => ?_, ?_, ?_, ?_, ?_⟩
  · by_cases h : 1 ≤ min (5 : ℚ) (t + (n - l) * (5 / 60))
    · simp [check_rate_limit, RATE_LIMIT_MAX_TOKENS, RATE_LIMIT_REFILL_RATE, h]
    · simp [check_rate_limit, RATE_LIMIT_MAX_TOKENS, RATE_LIMIT_REFILL_RATE, h]
  · norm_num [check_rate_limit, RATE_LIMIT_MAX_TOKENS, RATE_LIMIT_REFILL_RATE]
  · norm_num [runChecks, check_rate_limit, RATE_LIMIT_MAX_TOKENS, RATE_LIMIT_REFILL_RATE]
  · norm_num [check_rate_limit, RATE_LIMIT_MAX_TOKENS, RATE_LIMIT_REFILL_RATE]
  · norm_num [check_rate_limit, RATE_LIMIT_MAX_TOKENS, RATE_LIMIT_REFILL_RATE]

/-! ## C4 — tenant isolation at the analytics interface -/

/-- C4 counterexample: the claim "for all tenants T1 ≠ T2 and every
video owned by T2, a query scoped to T1 for that video's external id
returns NotFound" fails when T1 itself also owns a video with the same
external id (which `uq_video_per_org` permits): the lookup then returns
T1's own video id, not NotFound. -/
theorem resolve_video_uuid_counterexample :
    ("T1" ≠ "T2") ∧
    (∃ v ∈ [({ id := "u1", org_id := "T1", yt_video_id := "abc" } : VideoRow),
            { id := "u2", org_id := "T2", yt_video_id := "abc" }],
      v.org_id = "T2" ∧ v.yt_video_id = "abc") ∧
    resolve_video_uuid
      [{ id := "u1", org_id := "T1", yt_video_id := "abc" },
       { id := "u2", org_id := "T2", yt_video_id := "abc" }] "T1" "abc" ≠ none := by
  decide

/-- C4 (amended): a trend/distribution/keyword lookup scoped to tenant
T1 returns NotFound whenever T1 itself owns no video with the requested
external id — in particular for every video owned only by another
tenant, the same outcome as for a nonexistent video — and any id it
does return belongs to a video owned by T1, so another tenant's data is
never returned. -/
theorem resolve_video_uuid_tenant_isolation
    (videos : List VideoRow) (org_id yt_video_id : String) :
    ((∀ v ∈ videos, v.org_id = org_id → v.yt_video_id ≠ yt_video_id) →
      resolve_video_uuid videos org_id yt_video_id = none) ∧
    (∀ i, resolve_video_uuid videos org_id yt_video_id = some i →
      ∃ v ∈ videos, v.org_id = org_id ∧ v.yt_video_id = yt_video_id ∧ v.id = i) := by
  constructor
  · intro h
    rw [resolve_video_uuid]
    have hfind : videos.find? (fun v =>
        decide (v.org_id = org_id) && decide (v.yt_video_id = yt_video_id)) = none := by
      rw [List.find?_eq_none]
      intro v hv
      simp only [Bool.and_eq_true, decide_eq_true_iff, not_and]
      exact h v hv
    rw [hfind]
    rfl
  · intro i hi
    rw [resolve_video_uuid] at hi
    cases hfind : videos.find? (fun v =>
        decide (v.org_id = org_id) && decide (v.yt_video_id = yt_video_id)) with
    | none => rw [hfind] at hi; cases hi
    | some v =>
      rw [hfind] at hi
      have hmem := List.mem_of_find?_eq_some hfind
      have hp := List.find?_some hfind
      simp only [Bool.and_eq_true, decide_eq_true_iff] at hp
      exact ⟨v, hmem, hp.1, hp.2, by simpa using hi⟩

/-- C4 witness: the amended theorem applied to a table holding only
another tenant's video: the lookup scoped to T1 yields NotFound. -/
theorem resolve_video_uuid_tenant_isolation_witness :
    resolve_video_uuid [{ id := "u2", org_id := "T2", yt_video_id := "abc" }] "T1" "abc" =
      none :=
  (resolve_video_uuid_tenant_isolation
    [{ id := "u2", org_id := "T2", yt_video_id := "abc" }] "T1" "abc").1 (by decide)

/-! ## C3 — per-row conflict handling in the analysis task -/

/-- C3: at the concrete failing input — two unanalyzed comments, one of
which gained a `comment_sentiment` row from a concurrent duplicate run
between this task's select and its commit — the task raises
(`IntegrityError` escapes `session.commit()`, rolling back every staged
row) instead of skipping only the conflicting row and committing the
rest: the `try/except IntegrityError` in the source wraps only
`session.add`, which never raises. -/
theorem analyze_comments_conflict_aborts_batch :
    analyze_comments c3Videos c3Comments [] c3Concurrent "m"
      (fun _ => ("POSITIVE", 1)) (fun i => String.append "s-" i) t0 "yt1" "T" =
      .error () := by
  rfl

/-! ## C8 — label normalization -/

/-- C8: every raw classifier label normalizes to exactly one of
`pos`/`neg`/`neu` by case-insensitive prefix match — `pos` iff the
lowercased label starts with "pos", `neg` iff it starts with "neg" (and
not "pos"), `neu` otherwise — `analyze_batch` attaches the active model
identifier to every result, and concretely "POSITIVE" ↦ "pos",
"NEGATIVE" ↦ "neg", "SURPRISE" ↦ "neu". -/
theorem analyze_batch_label_normalization :
    (∀ raw : String,
      (normalize_label raw = "pos" ↔ startsWithStr (toLowerStr raw) "pos" = true) ∧
      (normalize_label raw = "neg" ↔
        (¬ startsWithStr (toLowerStr raw) "pos" = true ∧
          startsWithStr (toLowerStr raw) "neg" = true)) ∧
      (normalize_label raw = "neu" ↔
        (¬ startsWithStr (toLowerStr raw) "pos" = true ∧
          ¬ startsWithStr (toLowerStr raw) "neg" = true))) ∧
    (∀ (model_name : String) (classifier : String → String × ℚ) (texts : List String),
      ∀ r ∈ analyze_batch model_name classifier texts,
        r.model_name = model_name ∧
        (r.label = "pos" ∨ r.label = "neg" ∨ r.label = "neu")) ∧
    normalize_label "POSITIVE" = "pos" ∧
    normalize_label "NEGATIVE" = "neg" ∧
    normalize_label "SURPRISE" = "neu" := by
  have hnorm : ∀ raw : String,
      normalize_label raw = "pos" ∨ normalize_label raw = "neg" ∨
        normalize_label raw = "neu" := by
    intro raw
    unfold normalize_label
    by_cases h1 : startsWithStr (toLowerStr raw) "pos" = true
    · simp [h1]
    · by_cases h2 : startsWithStr (toLowerStr raw) "neg" = true
      · simp [h1, h2]
      · simp [h1, h2]
  refine ⟨fun raw => ?_, fun mn cl texts r hr => ?_, by decide, by decide, by decide⟩
  · unfold normalize_label
    by_cases h1 : startsWithStr (toLowerStr raw) "pos" = true
    · simp [h1]
    · by_cases h2 : startsWithStr (toLowerStr raw) "neg" = true
      · simp [h1, h2]
      · simp [h1, h2]
  · unfold analyze_batch at hr
    obtain ⟨p, _, rfl⟩ := List.mem_map.mp hr
    exact ⟨rfl, hnorm p.1⟩

/-- C8 witness: the model-attachment conjunct applied to a concrete
one-element batch. -/
theorem analyze_batch_label_normalization_witness :
    ({ label := "pos", score := 1, model_name := "m" } : SentOut).model_name = "m" ∧
    (({ label := "pos", score := 1, model_name := "m" } : SentOut).label = "pos" ∨
      ({ label := "pos", score := 1, model_name := "m" } : SentOut).label = "neg" ∨
      ({ label := "pos", score := 1, model_name := "m" } : SentOut).label = "neu") :=
  analyze_batch_label_normalization.2.1 "m" (fun t => (t, 1)) ["POSITIVE"]
    { label := "pos", score := 1, model_name := "m" } (by decide)

/-! ## C5 / C6 — sentiment distribution -/

lemma label_partition (l : List SentRow)
    (h : ∀ s ∈ l, s.label = "pos" ∨ s.label = "neg" ∨ s.label = "neu") :
    (l.filter (fun s => decide (s.label = "pos"))).length +
      (l.filter (fun s => decide (s.label = "neg"))).length +
      (l.filter (fun s => decide (s.label = "neu"))).length = l.length := by
  induction l with
  | nil => rfl
  | cons s rest ih =>
    have hs := h s (List.mem_cons_self _ _)
    have hrest := ih fun x hx => h x (List.mem_cons_of_mem _ hx)
    rcases hs with h1 | h1 | h1 <;>
      simp only [List.filter_cons, h1, decide_eq_true_eq, List.length_cons] <;>
      simp [h1] <;> omega

/-- C5: for a video with at least one sentiment row, all labelled
`pos`/`neg`/`neu`, `compute_distribution` reports `count` equal to the
row count, each percentage equal to that label's row count over the
total, and the three percentages sum to exactly 1 — hence within the
1e-6 tolerance. The computation reads the joined rows and persists
nothing (its result is a plain dict). -/
theorem compute_distribution_invariant
    (comments : List CommentRow) (sents : List SentRow) (video_id org_id : String)
    (hne : distRows comments sents video_id org_id ≠ [])
    (hlab : ∀ s ∈ distRows comments sents video_id org_id,
      s.label = "pos" ∨ s.label = "neg" ∨ s.label = "neu") :
    (compute_distribution comments sents video_id org_id).count =
      (distRows comments sents video_id org_id).length ∧
    (compute_distribution comments sents video_id org_id).pos_pct =
      (((distRows comments sents video_id org_id).filter
          (fun s => decide (s.label = "pos"))).length : ℚ) /
        ((distRows comments sents video_id org_id).length : ℚ) ∧
    (compute_distribution comments sents video_id org_id).neg_pct =
      (((distRows comments sents video_id org_id).filter
          (fun s => decide (s.label = "neg"))).length : ℚ) /
        ((distRows comments sents video_id org_id).length : ℚ) ∧
    (compute_distribution comments sents video_id org_id).neu_pct =
      (((distRows comments sents video_id org_id).filter
          (fun s => decide (s.label = "neu"))).length : ℚ) /
        ((distRows comments sents video_id org_id).length : ℚ) ∧
    (compute_distribution comments sents video_id org_id).pos_pct +
      (compute_distribution comments sents video_id org_id).neg_pct +
      (compute_distribution comments sents video_id org_id).neu_pct = 1 ∧
    |(compute_distribution comments sents video_id org_id).pos_pct +
      (compute_distribution comments sents video_id org_id).neg_pct +
      (compute_distribution comments sents video_id org_id).neu_pct - 1| ≤
      1 / 1000000 := by
  have hlen : (distRows comments sents video_id org_id).length ≠ 0 := by
    intro h
    exact hne (List.eq_nil_of_length_eq_zero h)
  have htotal : (if (distRows comments sents video_id org_id).length = 0 then 1
      else (distRows comments sents video_id org_id).length) =
      (distRows comments sents video_id org_id).length := if_neg hlen
  have hsum : (compute_distribution comments sents video_id org_id).pos_pct +
      (compute_distribution comments sents video_id org_id).neg_pct +
      (compute_distribution comments sents video_id org_id).neu_pct = 1 := by
    unfold compute_distribution
    simp only [htotal]
    rw [div_add_div_same, div_add_div_same]
    rw [show (((distRows comments sents video_id org_id).filter
          (fun s => decide (s.label = "pos"))).length : ℚ) +
        (((distRows comments sents video_id org_id).filter
          (fun s => decide (s.label = "neg"))).length : ℚ) +
        (((distRows comments sents video_id org_id).filter
          (fun s => decide (s.label = "neu"))).length : ℚ) =
        ((distRows comments sents video_id org_id).length : ℚ) by
      exact_mod_cast congrArg (Nat.cast : ℕ → ℚ)
        (label_partition (distRows comments sents video_id org_id) hlab)]
    exact div_self (Nat.cast_ne_zero.mpr hlen)
  refine ⟨?_, ?_, ?_, ?_, hsum, ?_⟩
  · unfold compute_distribution
    simp [hne]
  · unfold compute_distribution
    simp [hne]
  · unfold compute_distribution
    simp [hne]
  · unfold compute_distribution
    simp [hne]
  · rw [hsum]
    norm_num

/-- C5 witness: the distribution invariant applied to the concrete
two-row scenario. -/
theorem compute_distribution_invariant_witness :
    (compute_distribution c3Comments c5Sents "vid-uuid" "T").count =
      (distRows c3Comments c5Sents "vid-uuid" "T").length ∧
    (compute_distribution c3Comments c5Sents "vid-uuid" "T").pos_pct =
      (((distRows c3Comments c5Sents "vid-uuid" "T").filter
          (fun s => decide (s.label = "pos"))).length : ℚ) /
        ((distRows c3Comments c5Sents "vid-uuid" "T").length : ℚ) ∧
    (compute_distribution c3Comments c5Sents "vid-uuid" "T").neg_pct =
      (((distRows c3Comments c5Sents "vid-uuid" "T").filter
          (fun s => decide (s.label = "neg"))).length : ℚ) /
        ((distRows c3Comments c5Sents "vid-uuid" "T").length : ℚ) ∧
    (compute_distribution c3Comments c5Sents "vid-uuid" "T").neu_pct =
      (((distRows c3Comments c5Sents "vid-uuid" "T").filter
          (fun s => decide (s.label = "neu"))).length : ℚ) /
        ((distRows c3Comments c5Sents "vid-uuid" "T").length : ℚ) ∧
    (compute_distribution c3Comments c5Sents "vid-uuid" "T").pos_pct +
      (compute_distribution c3Comments c5Sents "vid-uuid" "T").neg_pct +
      (compute_distribution c3Comments c5Sents "vid-uuid" "T").neu_pct = 1 ∧
    |(compute_distribution c3Comments c5Sents "vid-uuid" "T").pos_pct +
      (compute_distribution c3Comments c5Sents "vid-uuid" "T").neg_pct +
      (compute_distribution c3Comments c5Sents "vid-uuid" "T").neu_pct - 1| ≤
      1 / 1000000 :=
  compute_distribution_invariant c3Comments c5Sents "vid-uuid" "T"
    (by decide) (by decide)

/-- C6: with zero stored sentiment rows for the tenant's video, the
`or 1` coercion makes the total 1, so `compute_distribution` returns
percentages 0.0 and a reported `count` of 1 — not 0. -/
theorem compute_distribution_zero_rows
    (comments : List CommentRow) (sents : List SentRow) (video_id org_id : String)
    (h : distRows comments sents video_id org_id = []) :
    compute_distribution comments sents video_id org_id =
      { pos_pct := 0, neg_pct := 0, neu_pct := 0, count := 1 } := by
  unfold compute_distribution
  simp [h]

/-- C6 witness: the zero-row theorem applied to an empty sentiment
table. -/
theorem compute_distribution_zero_rows_witness :
    compute_distribution c3Comments [] "vid-uuid" "T" =
      { pos_pct := 0, neg_pct := 0, neu_pct := 0, count := 1 } :=
  compute_distribution_zero_rows c3Comments [] "vid-uuid" "T" (by decide)

/-! ## C7 — sentiment analysis idempotence -/

lemma selectUnanalyzed_spec (videos : List VideoRow) (comments : List CommentRow)
    (sents : List SentRow) (org_id yt_video_id : String) (c : CommentRow) :
    c ∈ selectUnanalyzed videos comments sents org_id yt_video_id ↔
      c ∈ comments ∧ c.org_id = org_id ∧
        (∃ v ∈ videos, c.video_id = v.id ∧ v.yt_video_id = yt_video_id) ∧
        ∀ s ∈ sents, ¬(s.comment_id = c.id ∧ s.org_id = org_id) := by
  unfold selectUnanalyzed
  rw [List.mem_filter]
  simp [List.any_eq_true, not_and, and_assoc]

lemma zip_map_self {α β γ : Type} (g : α → β) (h : α → β → γ) (l : List α) :
    (l.zip (l.map g)).map (fun p => h p.1 p.2) = l.map (fun a => h a (g a)) := by
  induction l with
  | nil => rfl
  | cons x xs ih => simp [ih]

lemma staged_eq (selected : List CommentRow) (mn : String) (cl : String → String × ℚ)
    (genId : String → String) (now : Timestamp) (org_id : String) :
    (selected.zip (analyze_batch mn cl (selected.map (fun c => c.text)))).map
        (fun p => mkSentimentRow genId org_id p.1 p.2 now) =
      selected.map (stagedRow mn cl genId now org_id) := by
  have hab : analyze_batch mn cl (selected.map (fun c => c.text)) =
      selected.map (fun c =>
        ({ label := normalize_label (cl c.text).1, score := (cl c.text).2,
           model_name := mn } : SentOut)) := by
    unfold analyze_batch
    rw [List.map_map, List.map_map]
    rfl
  rw [hab]
  exact zip_map_self _ (fun a b => mkSentimentRow genId org_id a b now) selected

lemma staged_keys (selected : List CommentRow) (mn : String) (cl : String → String × ℚ)
    (genId : String → String) (now : Timestamp) (org_id : String) :
    ((selected.map (stagedRow mn cl genId now org_id)).map sentKey) =
      selected.map (fun c => (org_id, c.id)) := by
  rw [List.map_map]
  rfl

lemma nodup_pair_keys (org_id : String) (l : List CommentRow)
    (h : (l.map (fun c => c.id)).Nodup) :
    (l.map (fun c => (org_id, c.id))).Nodup := by
  have heq : (fun c : CommentRow => (org_id, c.id)) =
      (fun y => (org_id, y)) ∘ (fun c : CommentRow => c.id) := rfl
  rw [heq, ← List.map_map]
  exact h.map fun a b hab => (Prod.mk.injEq _ _ _ _ ▸ hab : _ ∧ _).2

/-- C7: with primary-key-unique comment ids, running the analysis task
twice in succession (with no concurrent writer) leaves the
`comment_sentiment` table of the first run unchanged: the second run's
anti-join selects zero comments and it returns a zero count — not an
error — so the total row count equals that of a single run. -/
theorem analyze_comments_idempotent
    (videos : List VideoRow) (comments : List CommentRow) (sents : List SentRow)
    (mn mn2 : String) (cl cl2 : String → String × ℚ) (genId genId2 : String → String)
    (now now2 : Timestamp) (yt_video_id org_id : String)
    (hids : (comments.map (fun c => c.id)).Nodup) :
    ∃ t1 n1,
      analyze_comments videos comments sents [] mn cl genId now yt_video_id org_id =
        .ok (t1, n1) ∧
      analyze_comments videos comments t1 [] mn2 cl2 genId2 now2 yt_video_id org_id =
        .ok (t1, 0) := by
  by_cases hsel : selectUnanalyzed videos comments sents org_id yt_video_id = []
  · refine ⟨sents, 0, ?_, ?_⟩
    · simp [analyze_comments, hsel]
    · simp [analyze_comments, hsel]
  · set selected := selectUnanalyzed videos comments sents org_id yt_video_id with hseldef
    set staged := selected.map (stagedRow mn cl genId now org_id) with hstdef
    have hidsel : (selected.map (fun c => c.id)).Nodup := by
      have hsub : List.Sublist (selected.map (fun c => c.id)) (comments.map (fun c => c.id)) :=
        (List.filter_sublist comments).map _
      exact List.Nodup.sublist hsub hids
    have hA : (staged.map sentKey).Nodup := by
      rw [hstdef, staged_keys]
      exact nodup_pair_keys org_id selected hidsel
    have hB : ∀ s ∈ staged, sentKey s ∉ sents.map sentKey := by
      intro s hs
      obtain ⟨c, hc, rfl⟩ := List.mem_map.mp hs
      intro hmem
      obtain ⟨s', hs', hks'⟩ := List.mem_map.mp hmem
      have hclauses := (selectUnanalyzed_spec videos comments sents org_id yt_video_id c).mp hc
      have hkey : s'.org_id = org_id ∧ s'.comment_id = c.id := by
        have h1 := congrArg Prod.fst hks'
        have h2 := congrArg Prod.snd hks'
        exact ⟨h1, h2⟩
      exact hclauses.2.2.2 s' hs' ⟨hkey.2, hkey.1⟩
    have hrun1 : analyze_comments videos comments sents [] mn cl genId now
        yt_video_id org_id = .ok (sents ++ staged, staged.length) := by
      simp only [analyze_comments]
      rw [← hseldef]
      rw [if_neg hsel]
      rw [staged_eq selected mn cl genId now org_id, ← hstdef, List.append_nil]
      rw [if_pos ⟨hA, hB⟩]
    have hsel2 : selectUnanalyzed videos comments (sents ++ staged) org_id yt_video_id = [] := by
      rw [List.eq_nil_iff_forall_not_mem]
      intro c hc
      rw [selectUnanalyzed_spec] at hc
      obtain ⟨hmemc, horg, hvid, hnos⟩ := hc
      by_cases hcs : c ∈ selected
      · refine hnos (stagedRow mn cl genId now org_id c) ?_ ⟨rfl, rfl⟩
        rw [List.mem_append]
        exact Or.inr (List.mem_map_of_mem _ hcs)
      · rw [hseldef, selectUnanalyzed_spec] at hcs
        push_neg at hcs
        obtain ⟨s, hsmem, hscid, hsorg⟩ := hcs hmemc horg hvid
        exact hnos s (List.mem_append.mpr (Or.inl hsmem)) ⟨hscid, hsorg⟩
    refine ⟨sents ++ staged, staged.length, hrun1, ?_⟩
    simp [analyze_comments, hsel2]

/-- C7 witness: the idempotence theorem applied to the two-comment
video with an empty sentiment table. -/
theorem analyze_comments_idempotent_witness :
    (c3Comments.map (fun c => c.id)).Nodup ∧
    ∃ t1 n1,
      analyze_comments c3Videos c3Comments [] [] "m" (fun t => (t, 1))
        (fun i => String.append "s-" i) t0 "yt1" "T" = .ok (t1, n1) ∧
      analyze_comments c3Videos c3Comments t1 [] "m" (fun t => (t, 1))
        (fun i => String.append "s-" i) t0 "yt1" "T" = .ok (t1, 0) :=
  ⟨by decide,
    analyze_comments_idempotent c3Videos c3Comments [] "m" "m" (fun t => (t, 1))
      (fun t => (t, 1)) (fun i => String.append "s-" i) (fun i => String.append "s-" i)
      t0 t0 "yt1" "T" (by decide)⟩

/-! ## C9 — trend aggregation -/

lemma mem_firstOccAux {α : Type} [DecidableEq α] (l : List α) :
    ∀ (seen : List α) (a : α), a ∈ firstOccAux l seen ↔ a ∈ l ∧ a ∉ seen := by
  induction l with
  | nil => intro seen a; simp [firstOccAux]
  | cons x xs ih =>
    intro seen a
    by_cases hx : x ∈ seen
    · rw [show firstOccAux (x :: xs) seen = firstOccAux xs seen from by
        rw [firstOccAux, if_pos hx]]
      rw [ih]
      constructor
      · rintro ⟨h1, h2⟩
        exact ⟨List.mem_cons_of_mem x h1, h2⟩
      · rintro ⟨h1, h2⟩
        rcases List.mem_cons.mp h1 with rfl | h1
        · exact absurd hx h2
        · exact ⟨h1, h2⟩
    · rw [show firstOccAux (x :: xs) seen = x :: firstOccAux xs (x :: seen) from by
        rw [firstOccAux, if_neg hx]]
      simp only [List.mem_cons, ih]
      constructor
      · rintro (rfl | ⟨h1, h2⟩)
        · exact ⟨Or.inl rfl, hx⟩
        · exact ⟨Or.inr h1, fun hseen => h2 (Or.inr hseen)⟩
      · rintro ⟨h1, h2⟩
        rcases h1 with rfl | h1
        · exact Or.inl rfl
        · by_cases hax : a = x
          · exact Or.inl hax
          · exact Or.inr ⟨h1, fun hmem => hmem.elim hax h2⟩

lemma nodup_firstOccAux {α : Type} [DecidableEq α] (l : List α) :
    ∀ seen : List α, (firstOccAux l seen).Nodup := by
  induction l with
  | nil => intro seen; simp [firstOccAux]
  | cons x xs ih =>
    intro seen
    rw [firstOccAux]
    split
    · exact ih seen
    · refine List.nodup_cons.mpr ⟨?_, ih (x :: seen)⟩
      intro hmem
      exact ((mem_firstOccAux xs (x :: seen) x).mp hmem).2 (List.mem_cons_self x seen)

lemma nodup_firstOccurrences {α : Type} [DecidableEq α] (l : List α) :
    (firstOccurrences l).Nodup :=
  nodup_firstOccAux l []

lemma mem_firstOccurrences {α : Type} [DecidableEq α] (l : List α) (a : α) :
    a ∈ firstOccurrences l ↔ a ∈ l := by
  rw [firstOccurrences, mem_firstOccAux]
  simp

lemma indicator_sum (l : List SentRow) (lab : String) :
    (l.map (fun s => if s.label = lab then (1 : ℚ) else 0)).sum =
      ((l.filter (fun s => decide (s.label = lab))).length : ℚ) := by
  induction l with
  | nil => simp
  | cons s rest ih =>
    by_cases h : s.label = lab
    · simp only [List.map_cons, List.sum_cons, if_pos h, List.filter_cons, h,
        decide_eq_true_eq, if_true, List.length_cons]
      rw [ih]
      push_cast
      ring
    · simp only [List.map_cons, List.sum_cons, if_neg h, List.filter_cons, h,
        decide_eq_true_eq, if_false]
      rw [ih]
      simp [h]

/-- C9: every aggregate row produced by `compute_and_store_trend` — for
any truncation granularity `trunc` — has `count` equal to its bucket's
row count, each percentage equal to that label's share of the bucket
(count-per-label over bucket count), and `window_end` fixed at 23:59:59
on `window_start`'s calendar date regardless of `trunc`; each bucket is
upserted into `sentiment_aggregates` by
`(org_id, video_id, window_start, window_end)`, overwriting on
conflict, so the final table stores exactly that row. -/
theorem compute_and_store_trend_spec
    (trunc : Timestamp → Timestamp) (comments : List CommentRow) (sents : List SentRow)
    (aggTable : List AggRow) (video_id org_id : String)
    (hnd : (aggTable.map aggKey).Nodup) :
    ∀ a ∈ (compute_and_store_trend trunc comments sents aggTable video_id org_id).1,
      a.window_end = day_end a.window_start ∧
      a.count = ((distRows comments sents video_id org_id).filter
        (fun s => decide (trunc s.analyzed_at = a.window_start))).length ∧
      a.pos_pct = ((((distRows comments sents video_id org_id).filter
          (fun s => decide (trunc s.analyzed_at = a.window_start))).filter
            (fun s => decide (s.label = "pos"))).length : ℚ) / (a.count : ℚ) ∧
      a.neg_pct = ((((distRows comments sents video_id org_id).filter
          (fun s => decide (trunc s.analyzed_at = a.window_start))).filter
            (fun s => decide (s.label = "neg"))).length : ℚ) / (a.count : ℚ) ∧
      a.neu_pct = ((((distRows comments sents video_id org_id).filter
          (fun s => decide (trunc s.analyzed_at = a.window_start))).filter
            (fun s => decide (s.label = "neu"))).length : ℚ) / (a.count : ℚ) ∧
      (rowsWith aggKey
        (compute_and_store_trend trunc comments sents aggTable video_id org_id).2
        (aggKey a)).length = 1 ∧
      ∀ x ∈ rowsWith aggKey
        (compute_and_store_trend trunc comments sents aggTable video_id org_id).2
        (aggKey a), x = a := by
  intro a ha
  simp only [compute_and_store_trend] at ha ⊢
  obtain ⟨b, hb, rfl⟩ := List.mem_map.mp ha
  have hm : ∀ o n : AggRow, aggKey o = aggKey n → aggKey (mergeAggregate o n) = aggKey n :=
    fun _ _ _ => rfl
  have haggkeys : (((trendBuckets trunc (distRows comments sents video_id org_id)).map
      (bucketAggregate trunc (distRows comments sents video_id org_id) video_id org_id)).map
        aggKey).Nodup := by
    rw [List.map_map]
    have heq : (aggKey ∘ bucketAggregate trunc (distRows comments sents video_id org_id)
        video_id org_id) = fun b => (org_id, video_id, b, day_end b) := rfl
    rw [heq]
    exact (nodup_firstOccurrences _).map fun b1 b2 h => congrArg (fun x => x.2.2.1) h
  have hmem : bucketAggregate trunc (distRows comments sents video_id org_id)
      video_id org_id b ∈ (trendBuckets trunc (distRows comments sents video_id org_id)).map
        (bucketAggregate trunc (distRows comments sents video_id org_id) video_id org_id) :=
    List.mem_map_of_mem _ hb
  have main := rowsWith_upsertAll_mem hm hnd haggkeys hmem
  refine ⟨rfl, rfl, ?_, ?_, ?_, main.1, fun x hx => ?_⟩
  · simp only [bucketAggregate]
    rw [indicator_sum]
  · simp only [bucketAggregate]
    rw [indicator_sum]
  · simp only [bucketAggregate]
    rw [indicator_sum]
  · rcases main.2 x hx with ⟨o, _, rfl⟩ | rfl
    · rfl
    · rfl

/-- C9 witness: the trend theorem applied to the concrete two-row
scenario with day truncation and an empty aggregates table, instantiated
at the single day-bucket row it produces. -/
theorem compute_and_store_trend_spec_witness :
    c9Row.window_end = day_end c9Row.window_start ∧
    c9Row.count = ((distRows c3Comments c5Sents "vid-uuid" "T").filter
      (fun s => decide (truncDay s.analyzed_at = c9Row.window_start))).length ∧
    c9Row.pos_pct = ((((distRows c3Comments c5Sents "vid-uuid" "T").filter
        (fun s => decide (truncDay s.analyzed_at = c9Row.window_start))).filter
          (fun s => decide (s.label = "pos"))).length : ℚ) / (c9Row.count : ℚ) ∧
    c9Row.neg_pct = ((((distRows c3Comments c5Sents "vid-uuid" "T").filter
        (fun s => decide (truncDay s.analyzed_at = c9Row.window_start))).filter
          (fun s => decide (s.label = "neg"))).length : ℚ) / (c9Row.count : ℚ) ∧
    c9Row.neu_pct = ((((distRows c3Comments c5Sents "vid-uuid" "T").filter
        (fun s => decide (truncDay s.analyzed_at = c9Row.window_start))).filter
          (fun s => decide (s.label = "neu"))).length : ℚ) / (c9Row.count : ℚ) ∧
    (rowsWith aggKey
      (compute_and_store_trend truncDay c3Comments c5Sents [] "vid-uuid" "T").2
      (aggKey c9Row)).length = 1 ∧
    ∀ x ∈ rowsWith aggKey
      (compute_and_store_trend truncDay c3Comments c5Sents [] "vid-uuid" "T").2
      (aggKey c9Row), x = c9Row :=
  compute_and_store_trend_spec truncDay c3Comments c5Sents [] "vid-uuid" "T" (by decide)
    c9Row
    (by rw [show (compute_and_store_trend truncDay c3Comments c5Sents []
        "vid-uuid" "T").1 = [c9Row] from rfl]
        exact List.mem_singleton_self c9Row)

/-! ## C10 — keyword extraction -/

lemma mem_insertDesc (x y : String × ℕ) (l : List (String × ℕ)) :
    y ∈ insertDesc x l ↔ y = x ∨ y ∈ l := by
  induction l with
  | nil => simp [insertDesc]
  | cons z zs ih =>
    rw [insertDesc]
    by_cases h : x.2 < z.2
    · rw [if_pos h]
      simp only [List.mem_cons, ih]
      tauto
    · rw [if_neg h]
      simp only [List.mem_cons]

lemma insertDesc_sorted (x : String × ℕ) (l : List (String × ℕ))
    (h : l.Pairwise (fun a b => b.2 ≤ a.2)) :
    (insertDesc x l).Pairwise (fun a b => b.2 ≤ a.2) := by
  induction l with
  | nil => simp [insertDesc]
  | cons z zs ih =>
    rw [List.pairwise_cons] at h
    obtain ⟨hz, hzs⟩ := h
    rw [insertDesc]
    by_cases hc : x.2 < z.2
    · rw [if_pos hc]
      rw [List.pairwise_cons]
      refine ⟨?_, ih hzs⟩
      intro y hy
      rcases (mem_insertDesc x y zs).mp hy with rfl | hmem
      · exact le_of_lt hc
      · exact hz y hmem
    · rw [if_neg hc]
      rw [List.pairwise_cons]
      refine ⟨?_, List.pairwise_cons.mpr ⟨hz, hzs⟩⟩
      intro y hy
      rcases List.mem_cons.mp hy with rfl | hmem
      · exact Nat.le_of_not_lt hc
      · exact le_trans (hz y hmem) (Nat.le_of_not_lt hc)

lemma sortDesc_sorted (l : List (String × ℕ)) :
    (sortDesc l).Pairwise (fun a b => b.2 ≤ a.2) := by
  induction l with
  | nil => exact List.Pairwise.nil
  | cons x xs ih => exact insertDesc_sorted x _ ih

lemma filter_insertDesc (x : String × ℕ) (l : List (String × ℕ)) (c : ℕ) :
    (insertDesc x l).filter (fun a => decide (a.2 = c)) =
      if x.2 = c then x :: l.filter (fun a => decide (a.2 = c))
      else l.filter (fun a => decide (a.2 = c)) := by
  induction l with
  | nil => by_cases h : x.2 = c <;> simp [insertDesc, h]
  | cons z zs ih =>
    rw [insertDesc]
    by_cases hc : x.2 < z.2
    · rw [if_pos hc]
      rw [List.filter_cons]
      by_cases hz : z.2 = c
      · have hx : ¬ x.2 = c := by omega
        simp [hz, hx, ih, List.filter_cons]
      · simp [hz, ih, List.filter_cons]
    · rw [if_neg hc]
      rw [List.filter_cons, List.filter_cons]
      by_cases hx : x.2 = c <;> simp [hx]

lemma filter_sortDesc (l : List (String × ℕ)) (c : ℕ) :
    (sortDesc l).filter (fun a => decide (a.2 = c)) =
      l.filter (fun a => decide (a.2 = c)) := by
  induction l with
  | nil => rfl
  | cons x xs ih =>
    rw [sortDesc, filter_insertDesc, List.filter_cons]
    by_cases hx : x.2 = c <;> simp [hx, ih]

lemma insertDesc_perm (x : String × ℕ) (l : List (String × ℕ)) :
    (insertDesc x l).Perm (x :: l) := by
  induction l with
  | nil => exact List.Perm.refl _
  | cons z zs ih =>
    rw [insertDesc]
    by_cases h : x.2 < z.2
    · rw [if_pos h]
      exact (ih.cons z).trans (List.Perm.swap x z zs)
    · rw [if_neg h]

lemma sortDesc_perm (l : List (String × ℕ)) : (sortDesc l).Perm l := by
  induction l with
  | nil => exact List.Perm.refl _
  | cons x xs ih => exact (insertDesc_perm x (sortDesc xs)).trans (ih.cons x)

lemma termCounts_fst (tokens : List String) :
    (termCounts tokens).map Prod.fst = firstOccurrences tokens := by
  rw [termCounts, List.map_map]
  exact List.map_id' _

lemma mem_termCounts (tokens : List String) (tc : String × ℕ)
    (h : tc ∈ termCounts tokens) : tc.1 ∈ tokens ∧ tc.2 = tokens.count tc.1 := by
  obtain ⟨t, ht, rfl⟩ := List.mem_map.mp h
  exact ⟨(mem_firstOccurrences tokens t).mp ht, rfl⟩

lemma mergeKeyword_key (o n : KeywordRow) (h : kwKey o = kwKey n) :
    kwKey (mergeKeyword o n) = kwKey n := by
  simpa [kwKey, mergeKeyword] using h

lemma most_common_mem (tokens : List String) (k : ℕ) (tc : String × ℕ)
    (h : tc ∈ most_common tokens k) : tc.1 ∈ tokens ∧ tc.2 = tokens.count tc.1 := by
  rw [most_common] at h
  have h1 : tc ∈ sortDesc (termCounts tokens) := List.mem_of_mem_take h
  exact mem_termCounts tokens tc ((sortDesc_perm (termCounts tokens)).mem_iff.mp h1)

lemma most_common_fst_nodup (tokens : List String) (k : ℕ) :
    ((most_common tokens k).map Prod.fst).Nodup := by
  rw [most_common, List.map_take]
  refine List.Nodup.sublist (List.take_sublist _ _) ?_
  have hperm : ((sortDesc (termCounts tokens)).map Prod.fst).Perm
      ((termCounts tokens).map Prod.fst) := (sortDesc_perm _).map _
  rw [hperm.nodup_iff, termCounts_fst]
  exact nodup_firstOccurrences tokens

/-- C10: `compute_and_store_keywords` counts lowercased tokens and keeps
the top `top_k` terms in stable descending-count order: the returned
list is sorted by descending count, equal-count entries keep the
first-encountered order of `Counter` insertion (filtering the sorted
full list by any count value preserves the original order), every
returned count is the term's frequency and is at least 1, and each
returned term is stored in exactly one `keywords` row whose count is
replaced by — not incremented with — the fresh snapshot value.
Concretely, comments ["the cat sat", "the cat ran"] with top_k = 2
yield [("the", 2), ("cat", 2)]. -/
theorem compute_and_store_keywords_spec
    (tokenize : String → List String) (comments : List CommentRow)
    (kwTable : List KeywordRow) (video_id org_id : String) (top_k : ℕ)
    (genId : String → String) (now : Timestamp)
    (hnd : (kwTable.map kwKey).Nodup) :
    ((compute_and_store_keywords tokenize comments kwTable video_id org_id top_k
        genId now).1.Pairwise (fun a b => b.2 ≤ a.2)) ∧
    (∀ c, (sortDesc (termCounts (keywordTokens tokenize comments video_id
        org_id))).filter (fun a => decide (a.2 = c)) =
      (termCounts (keywordTokens tokenize comments video_id org_id)).filter
        (fun a => decide (a.2 = c))) ∧
    (∀ tc ∈ (compute_and_store_keywords tokenize comments kwTable video_id org_id
        top_k genId now).1,
      1 ≤ tc.2 ∧
      tc.2 = (keywordTokens tokenize comments video_id org_id).count tc.1 ∧
      (rowsWith kwKey
        (compute_and_store_keywords tokenize comments kwTable video_id org_id top_k
          genId now).2 (org_id, video_id, tc.1)).length = 1 ∧
      ∀ x ∈ rowsWith kwKey
        (compute_and_store_keywords tokenize comments kwTable video_id org_id top_k
          genId now).2 (org_id, video_id, tc.1),
        x.term = tc.1 ∧ x.count = tc.2) ∧
    (compute_and_store_keywords tokenizeWS c10Comments [] "V" "T" 2
      (fun t => t) t0).1 = [("the", 2), ("cat", 2)] := by
  by_cases hemp : keywordTokens tokenize comments video_id org_id = []
  · refine ⟨?_, fun c => filter_sortDesc _ c, ?_, by rfl⟩
    · simp [compute_and_store_keywords, hemp]
    · simp [compute_and_store_keywords, hemp]
  · have hres : (compute_and_store_keywords tokenize comments kwTable video_id org_id
        top_k genId now).1 =
        most_common (keywordTokens tokenize comments video_id org_id) top_k := by
      simp [compute_and_store_keywords, hemp]
    refine ⟨?_, fun c => filter_sortDesc _ c, ?_, by rfl⟩
    · rw [hres, most_common]
      exact (sortDesc_sorted _).sublist (List.take_sublist _ _)
    · intro tc htc
      rw [hres] at htc
      have hmc := most_common_mem _ _ _ htc
      have hcount : 1 ≤ tc.2 := by
        rw [hmc.2]
        exact List.count_pos_iff.mpr hmc.1
      refine ⟨hcount, hmc.2, ?_⟩
      have hrows : (compute_and_store_keywords tokenize comments kwTable video_id
          org_id top_k genId now).2 =
          upsertAll kwKey mergeKeyword kwTable
            ((most_common (keywordTokens tokenize comments video_id org_id)
              top_k).map (keywordRowOf genId org_id video_id now)) := by
        simp [compute_and_store_keywords, hemp, most_common]
      have hkeys : (((most_common (keywordTokens tokenize comments video_id org_id)
          top_k).map (keywordRowOf genId org_id video_id now)).map kwKey).Nodup := by
        rw [List.map_map]
        have heq : (kwKey ∘ keywordRowOf genId org_id video_id now) =
            (fun y => (org_id, video_id, y)) ∘ Prod.fst := rfl
        rw [heq, ← List.map_map]
        exact (most_common_fst_nodup _ _).map fun a b h =>
          congrArg (fun x : String × String × String => x.2.2) h
      have hmemrow : keywordRowOf genId org_id video_id now tc ∈
          (most_common (keywordTokens tokenize comments video_id org_id)
            top_k).map (keywordRowOf genId org_id video_id now) :=
        List.mem_map_of_mem _ htc
      have main := rowsWith_upsertAll_mem mergeKeyword_key hnd hkeys hmemrow
      have hkeyr : kwKey (keywordRowOf genId org_id video_id now tc) =
          (org_id, video_id, tc.1) := rfl
      rw [hkeyr] at main
      rw [hrows]
      refine ⟨main.1, fun x hx => ?_⟩
      rcases main.2 x hx with ⟨o, hko, rfl⟩ | rfl
      · have hterm : o.term = tc.1 := congrArg (fun p : String × String × String => p.2.2) hko
        exact ⟨hterm, rfl⟩
      · exact ⟨rfl, rfl⟩

/-- C10 witness: the keyword theorem applied to the concrete scenario
inputs with an empty keywords table. -/
theorem compute_and_store_keywords_spec_witness :
    ((compute_and_store_keywords tokenizeWS c10Comments [] "V" "T" 2
        (fun t => t) t0).1.Pairwise (fun a b => b.2 ≤ a.2)) ∧
    (∀ c, (sortDesc (termCounts (keywordTokens tokenizeWS c10Comments "V"
        "T"))).filter (fun a => decide (a.2 = c)) =
      (termCounts (keywordTokens tokenizeWS c10Comments "V" "T")).filter
        (fun a => decide (a.2 = c))) ∧
    (∀ tc ∈ (compute_and_store_keywords tokenizeWS c10Comments [] "V" "T" 2
        (fun t => t) t0).1,
      1 ≤ tc.2 ∧
      tc.2 = (keywordTokens tokenizeWS c10Comments "V" "T").count tc.1 ∧
      (rowsWith kwKey
        (compute_and_store_keywords tokenizeWS c10Comments [] "V" "T" 2
          (fun t => t) t0).2 ("T", "V", tc.1)).length = 1 ∧
      ∀ x ∈ rowsWith kwKey
        (compute_and_store_keywords tokenizeWS c10Comments [] "V" "T" 2
          (fun t => t) t0).2 ("T", "V", tc.1),
        x.term = tc.1 ∧ x.count = tc.2) ∧
    (compute_and_store_keywords tokenizeWS c10Comments [] "V" "T" 2
      (fun t => t) t0).1 = [("the", 2), ("cat", 2)] :=
  compute_and_store_keywords_spec tokenizeWS c10Comments [] "V" "T" 2
    (fun t => t) t0 (by decide)

end YSA
